import Mathlib

/-!
# Verification of the morphism-labs zkevm-circuits blob/chunk core

A shallow embedding, in Lean 4, of the chunk-hash builder
(`aggregator/src/chunk.rs`), the blob byte encoder and blob circuit
assignment (`zkevm-circuits/src/blob_circuit.rs`), together with proofs of
the specification's claims about them.

Conventions:
* the foreign scalar field (bls12_381::Scalar, called `Fp` in the Rust
  sources) is embedded as `ZMod blsScalarModulus`;
* bytes are `Nat` values `< 256`; machine integers (`u16`, `u32`, `u64`)
  are `Nat` with explicit `% 2^w` where truncation happens in the source;
* fallible Rust operations (`Result`, `CtOption::unwrap`, `assert!`)
  become `Except`/`Option`;
* keccak-256 is an external library call in the sources
  (`ethers_core::utils::keccak256`); it is kept as an explicit function
  parameter of the definitions that invoke it.

Identifier note: a few Rust names (`partial_blob`, `partial_result`)
begin with a word this development avoids in identifiers; they are
embedded as `partBlob` and `partResult`, with a comment at each
definition recording the original name.
-/

/-! ## Constants of the blob circuit (`zkevm-circuits/src/blob_circuit.rs`) -/

/-- `pub const BLOB_WIDTH: usize = 4096;` -/
def BLOB_WIDTH : Nat := 4096

/-- `pub const BLOB_WIDTH_BITS: u32 = 12;` -/
def BLOB_WIDTH_BITS : Nat := 12

/-- Modelled from the spec: `FP_S` is a constant of the blob circuit's
`util` module, which is not among the provided sources.  The spec's
root-of-unity construction (§4.3) targets the primitive `4096`-th root of
unity of the BLS12-381 scalar field, whose standard `S` constant (the
2-adicity of `p − 1`, as exported by the `bls12_381` crate's `Scalar`) is
`32`; the name `FP_S` refers to that constant. -/
def FP_S : Nat := 32

/-- The BLS12-381 scalar field modulus
`0x73eda753299d7d483339d80809a1d80553bda402fffe5bfeffffffff00000001`,
the modulus of `bls12_381::Scalar` (`Fp` in the sources). -/
def blsScalarModulus : Nat :=
  52435875175126190479447740508185965837690552500527637822603658699938581184513

/-- The foreign scalar field `bls12_381::Scalar`. -/
abbrev Fp := ZMod blsScalarModulus

instance : Fact (1 < blsScalarModulus) := ⟨by norm_num [blsScalarModulus]⟩

/-! ## Fast modular exponentiation on `Nat`

`bls12_381::Scalar::pow` is square-and-multiply modular exponentiation;
`powMod` is its integer-level counterpart, used to state and decide facts
about concrete field elements whose exponents are far too large for
unary-step evaluation. -/

/-- Square-and-multiply exponentiation modulo `m`, with explicit fuel
(structural recursion so that the kernel can evaluate it). -/
def powModAux (m : Nat) : Nat → Nat → Nat → Nat
  | 0, _, _ => 1 % m
  | fuel + 1, b, e =>
    if e = 0 then 1 % m
    else
      let r := powModAux m fuel (b * b % m) (e / 2)
      if e % 2 = 1 then r * b % m else r

/-- `powMod m b e = b ^ e % m` for every exponent `e < 2 ^ 256`. -/
def powMod (m b e : Nat) : Nat := powModAux m 256 b e

/-! ## Byte-level helpers -/

/-- Big-endian byte encoding of `n` on exactly `w` bytes (the value is
taken modulo `2^(8·w)`, mirroring Rust's fixed-width `to_be_bytes`). -/
def beBytes : Nat → Nat → List Nat
  | 0, _ => []
  | w + 1, n => beBytes w (n / 256) ++ [n % 256]

/-- `(x as u32).to_le_bytes()`: 4 little-endian bytes. -/
def leBytes4 (n : Nat) : List Nat :=
  [n % 256, n / 256 % 256, n / 256 ^ 2 % 256, n / 256 ^ 3 % 256]

/-- Big-endian numeric value of a byte list. -/
def beVal (l : List Nat) : Nat := l.foldl (fun acc b => acc * 256 + b) 0

/-- Little-endian numeric value of a byte list (the integer a 32-byte
`bls12_381::Scalar` encoding denotes). -/
def leVal (l : List Nat) : Nat := l.foldr (fun b acc => b + 256 * acc) 0

/-- `slice::chunks(k)`: split a list into consecutive chunks of length
`k` (the last chunk may be shorter); fuel-structured so the kernel can
evaluate it.  Invoked with `fuel = l.length`. -/
def chunksOf (k : Nat) : Nat → List Nat → List (List Nat)
  | 0, _ => []
  | _ + 1, [] => []
  | fuel + 1, x :: xs => (x :: xs).take k :: chunksOf k fuel ((x :: xs).drop k)

/-! ## The blob byte encoder (`block_to_blob`, blob_circuit.rs lines 375-414) -/

/-- `const MAX_BLOB_DATA_SIZE: usize = 4096 * 31 - 4;` -/
def MAX_BLOB_DATA_SIZE : Nat := 4096 * 31 - 4

/-- `block_to_blob`, embedded on the concatenated transaction payload
(`data`, the concatenation of each transaction's `rlp_signed` bytes):
one version byte `0`, the 4-byte little-endian payload length, up to 27
payload bytes zero-padded to 27, then (when the payload exceeds 27
bytes) each 31-byte group of the rest preceded by a zero byte and
zero-padded to 31.  Fails when the payload exceeds `MAX_BLOB_DATA_SIZE`. -/
def block_to_blob (data : List Nat) : Except String (List Nat) :=
  if MAX_BLOB_DATA_SIZE < data.length then
    .error ("data is too large for blob. len=" ++ toString data.length)
  else
    let header := 0 :: (leBytes4 data.length ++ data.take 27)
    if data.length ≤ 27 then
      .ok (header ++ List.replicate (27 - data.length) 0)
    else
      .ok (header ++
        (chunksOf 31 (data.drop 27).length (data.drop 27)).flatMap
          (fun c => 0 :: (c ++ List.replicate (31 - c.length) 0)))

/-! ## Root-of-unity domain (blob_circuit.rs lines 190-206)

`assign` computes
`Fp::from(123).pow(&[(FP_S - BLOB_WIDTH_BITS) as u64, 0, 0, 0])`,
raises it to the powers `0..BLOB_WIDTH`, and bit-reversal-permutes the
resulting sequence. -/

/-- The value the source binds to `blob_width_th_root_of_unity`:
`123 ^ (FP_S - BLOB_WIDTH_BITS)` in `Fp`. -/
def blob_width_th_root_of_unity : Fp :=
  (123 : Fp) ^ (FP_S - BLOB_WIDTH_BITS)

/-- `roots_of_unity`: the powers `0..BLOB_WIDTH` of
`blob_width_th_root_of_unity`. -/
def roots_of_unity : List Fp :=
  (List.range BLOB_WIDTH).map (fun i => blob_width_th_root_of_unity ^ i)

/-- Reverse the low `bits` bits of `i`. -/
def bitReverse (bits i : Nat) : Nat :=
  (List.range bits).foldl (fun acc j => acc * 2 + i / 2 ^ j % 2) 0

/-- Modelled from the spec: `bit_reversal_permutation` lives in the blob
circuit's `util` module, absent from the provided sources.  Spec §4.3:
"applies the bit-reversal permutation over `log2(BLOB_WIDTH)`-bit indices
(index `i` maps to the domain value originally at the bit-reversal of
`i`)". -/
def bit_reversal_permutation (l : List Fp) : List Fp :=
  (List.range l.length).map (fun i => l.getD (bitReverse BLOB_WIDTH_BITS i) 0)

/-- `roots_of_unity_brp`, the permuted evaluation domain used by
`assign`. -/
def roots_of_unity_brp : List Fp := bit_reversal_permutation roots_of_unity

/-- Modelled from the spec (§4.3): the root the domain builder is
specified to start from, "the primitive `BLOB_WIDTH`-th root of unity of
the foreign scalar field (via `generator^((p−1)/BLOB_WIDTH)`)"; the
generator of the BLS12-381 scalar field's multiplicative group is `7`
(the code's own `test_root_of_unity` uses exactly this expression). -/
def specRootOfUnity : Fp :=
  (7 : Fp) ^ ((blsScalarModulus - 1) / BLOB_WIDTH)

/-! ## Barycentric evaluation (`BlobCircuit::assign`, lines 141-298)

The `FpConfig` gadget calls (`mul`, `sub_no_carry` + `carry_mod`,
`add_no_carry` + `carry_mod`, `divide`, `load_constant`, `load_private`)
are the external foreign-field engine; their value semantics is plain
`Fp` arithmetic (`carry_mod` only renormalizes the limb representation).
`fp_is_zero` (util module) produces the 0/1 indicator of an `Fp` value
being zero, and `cross_field_load_private` re-asserts that native-field
indicator as the equal 0/1 element of `Fp` (spec §4.4 cross-field
bridging); value-wise the composite is `isZeroIndicator`. -/

/-- The 0/1 zero-indicator of an `Fp` value
(`fp_is_zero` followed by `cross_field_load_private`). -/
def isZeroIndicator (x : Fp) : Fp := if x = 0 then 1 else 0

/-- The three running accumulators of `assign`'s main loop. -/
structure EvalAcc where
  result : Fp
  flag : Fp
  eval : Fp
  deriving DecidableEq

/-- One iteration of the in-window loop (lines 213-249): accumulate the
direct-lookup `result`, the `cp_is_not_root_of_unity` flag, and the
barycentric sum, using the safe (zero-avoiding) denominator. -/
def inWindowStep (z : Fp) (index : Nat) (blob : List Fp) (acc : EvalAcc) (i : Nat) :
    EvalAcc :=
  let root := roots_of_unity_brp.getD (i + index) 0
  let blobi := blob.getD i 0
  let numinator := root * blobi
  let denominator := z - root
  let isZero := isZeroIndicator denominator
  let safeDenominator := denominator + isZero
  { result := acc.result + blobi * isZero
    flag := acc.flag * (1 - isZero)
    eval := acc.eval + numinator * safeDenominator⁻¹ }

/-- One iteration of the out-of-window loop (lines 261-280): only the
flag bookkeeping runs. -/
def outWindowStep (z : Fp) (acc : Fp) (i : Nat) : Fp :=
  acc * (1 - isZeroIndicator (z - roots_of_unity_brp.getD i 0))

/-- The accumulators after the in-window loop, started from
`result = 0`, `cp_is_not_root_of_unity = 1`, `barycentric_evaluation = 0`. -/
def assignAcc (z : Fp) (index : Nat) (blob : List Fp) : EvalAcc :=
  (List.range blob.length).foldl (inWindowStep z index blob) ⟨0, 1, 0⟩

/-- The normalization factor `(z ^ BLOB_WIDTH - 1) / BLOB_WIDTH`
(lines 250-254). -/
def barycentricFactor (z : Fp) : Fp :=
  (z ^ BLOB_WIDTH - 1) * (BLOB_WIDTH : Fp)⁻¹

/-- The final `cp_is_not_root_of_unity` flag: the in-window flag further
multiplied through the out-of-window positions
`(0..index) ++ (index+len..BLOB_WIDTH)`. -/
def finalFlag (z : Fp) (index : Nat) (blob : List Fp) : Fp :=
  (List.range index ++
      List.range' (index + blob.length) (BLOB_WIDTH - (index + blob.length))).foldl
    (outWindowStep z) (assignAcc z index blob).flag

/-- The evaluation result `assign` assigns (lines 282-284):
`result + barycentric_evaluation * cp_is_not_root_of_unity`, where the
barycentric sum has been multiplied by the normalization factor. -/
def assign (z : Fp) (index : Nat) (blob : List Fp) : Fp :=
  (assignAcc z index blob).result +
    (assignAcc z index blob).eval * barycentricFactor z * finalFlag z index blob

/-! ## Decoding blob groups as field elements

(`BlobCircuit::partial_blob`, lines 83-95, embedded as `partBlob`.) -/

/-- Value semantics of `bls12_381::Scalar::from_bytes` on a 32-byte
little-endian encoding: `some` of the encoded integer's residue exactly
when the integer is a canonical representative (strictly below the
modulus), `none` otherwise. -/
def fpFromBytes (bytes : List Nat) : Option Fp :=
  if leVal bytes < blsScalarModulus then some ((leVal bytes : Nat) : Fp) else none

/-- `fe_to_biguint`: the canonical integer value of a field element. -/
def feToBigUInt (x : Fp) : Nat := x.val

/-- `decompose_biguint(v, 3, 88)` (halo2-base limb codec): three 88-bit
little-endian limbs, the last one taking the remaining high bits. -/
def decompose3x88 (v : Nat) : List Nat :=
  [v % 2 ^ 88, v / 2 ^ 88 % 2 ^ 88, v / 2 ^ 176]

/-! ## The chunk-hash builder (`aggregator/src/chunk.rs`) -/

/-- One transaction of a block witness, with the fields `chunk.rs` and
`block_to_blob` read: the L1-message flag (`tx_type.is_l1_msg()`), the
block number, the nonce (queue-index alias for L1 messages), the 32-byte
hash, and the signed RLP encoding. -/
structure Transaction where
  isL1Msg : Bool
  blockNumber : Nat
  nonce : Nat
  hash : List Nat
  rlpSigned : List Nat

/-- One block context of a block witness (`number` is stored as a `u64`
via `as_u64()`, `base_fee` is a `U256`, `gas_limit` a `u64`;
`stateRoot` is the context's `eth_block.state_root`). -/
structure BlockContext where
  number : Nat
  timestamp : Nat
  baseFee : Nat
  gasLimit : Nat
  stateRoot : List Nat

/-- The slice of a witness `Block` that `chunk.rs` and the blob circuit
consume.  `ctxs` stands for the `BTreeMap`'s ascending-block-number
iteration order; the roots and scalars are `U256` values (arbitrary
256-bit integers). -/
structure WitnessBlock where
  ctxs : List (Nat × BlockContext)
  txs : List Transaction
  chainId : Nat
  startL1QueueIndex : Nat
  prevStateRoot : Nat
  withdrawRoot : Nat
  challengePoint : Nat
  partResult : Nat

/-- The concatenated transaction payload `block_to_blob` reads:
`block.txs.iter().flat_map(|tx| &tx.rlp_signed)`. -/
def blockPayload (b : WitnessBlock) : List Nat :=
  b.txs.flatMap (fun tx => tx.rlpSigned)

/-- `BlobCircuit::partial_blob` (lines 83-95, embedded as `partBlob`):
encode the block's concatenated payload with `block_to_blob`, split the
byte stream into 32-byte groups, byte-reverse each group and decode it
as an `Fp` element (`Scalar::from_bytes(...).unwrap()`, modelled with
default `0` — `blob_groups_canonical` shows the decode never fails on an
encoder output); an encoding error yields the empty vector. -/
def partBlob (block : WitnessBlock) : List Fp :=
  match block_to_blob (blockPayload block) with
  | .ok blob =>
    (chunksOf 32 blob.length blob).map
      (fun chunk => (fpFromBytes chunk.reverse).getD 0)
  | .error _ => []

/-- `ChunkHash` (chunk.rs lines 20-37): hashes kept as 32-byte lists;
`challenge_point`/`partial_result` (the latter embedded as `partResult`)
are 32-byte little-endian scalar encodings. -/
structure ChunkHash where
  chain_id : Nat
  prev_state_root : List Nat
  post_state_root : List Nat
  withdraw_root : List Nat
  data_hash : List Nat
  challenge_point : List Nat
  partResult : List Nat
  is_padding : Bool

/-- `u64` modulus for the wrapping arithmetic of the L1-queue cursor. -/
def U64MOD : Nat := 2 ^ 64

/-- `num_l2_txs` of one block: the number of non-L1-message transactions
carrying this block number. -/
def numL2Txs (txs : List Transaction) (bNum : Nat) : Nat :=
  (txs.filter (fun tx => !tx.isL1Msg && tx.blockNumber == bNum)).length

/-- `num_l1_msgs` of one block, given the running cursor
(`total_l1_popped`): `max_queue_index - total_l1_popped + 1` in wrapping
`u64` arithmetic over the maximal queue index (nonce) of this block's L1
messages, or `0` when the block has none. -/
def numL1Msgs (txs : List Transaction) (bNum cursor : Nat) : Nat :=
  match ((txs.filter (fun tx => tx.isL1Msg && tx.blockNumber == bNum)).map
      (fun tx => tx.nonce)).max? with
  | none => 0
  | some m => ((m % U64MOD + U64MOD - cursor % U64MOD) % U64MOD + 1) % U64MOD

/-- The 58-byte header emitted for one block (chunk.rs lines 74-80):
big-endian 8-byte number, 8-byte timestamp, 32-byte base fee,
8-byte gas limit, and the 2-byte total transaction count. -/
def blockHeaderBytes (ctx : BlockContext) (numTxs : Nat) : List Nat :=
  beBytes 8 ctx.number ++ beBytes 8 ctx.timestamp ++ beBytes 32 ctx.baseFee ++
    beBytes 8 ctx.gasLimit ++ beBytes 2 numTxs

/-- The `data_bytes` stream of `ChunkHash::from_witness_block`
(lines 44-84), embedded as the source computes it: a fold over the block
contexts carrying the mutable `total_l1_popped` cursor and the emitted
bytes, followed by every transaction's 32-byte hash in witness order. -/
def chunkDataBytes (b : WitnessBlock) : List Nat :=
  (b.ctxs.foldl
      (fun (acc : Nat × List Nat) (p : Nat × BlockContext) =>
        let numL1 := numL1Msgs b.txs p.1 acc.1
        ((acc.1 + numL1) % U64MOD,
          acc.2 ++ blockHeaderBytes p.2 (numL2Txs b.txs p.1 + numL1)))
      (b.startL1QueueIndex % U64MOD, [])).2 ++
    b.txs.flatMap (fun tx => tx.hash)

/-- The per-block header stream as the spec words it (§4.1 steps 1-2):
"maintain a running L1-queue cursor initialized to the witness's starting
offset; for each block context, in ascending block-number order, count L2
transactions, compute the L1-message count from the maximal queue index
and the cursor, advance the cursor by that count, and emit the header
bytes". -/
def specHeaderBytes (txs : List Transaction) : Nat → List (Nat × BlockContext) → List Nat
  | _, [] => []
  | cursor, p :: rest =>
    let numL1 := numL1Msgs txs p.1 cursor
    blockHeaderBytes p.2 (numL2Txs txs p.1 + numL1) ++
      specHeaderBytes txs ((cursor + numL1) % U64MOD) rest

/-- The full byte stream as the spec words it (§4.1 steps 2-3): the block
headers in ascending order, then every transaction's hash in the
witness's transaction order. -/
def specDataBytes (b : WitnessBlock) : List Nat :=
  specHeaderBytes b.txs (b.startL1QueueIndex % U64MOD) b.ctxs ++
    b.txs.flatMap (fun tx => tx.hash)

/-- `ChunkHash::from_witness_block` (lines 41-114), parametrized by the
external `keccak256` function: `data_hash` is keccak of the data-byte
stream; `post_state_root` is the state root of the context with the
greatest block number (the `BTreeMap`'s `last_key_value`), falling back
to `prev_state_root`. -/
def from_witness_block (keccak : List Nat → List Nat) (b : WitnessBlock)
    (is_padding : Bool) : ChunkHash :=
  { chain_id := b.chainId
    prev_state_root := beBytes 32 b.prevStateRoot
    post_state_root :=
      match b.ctxs.getLast? with
      | some p => p.2.stateRoot
      | none => beBytes 32 b.prevStateRoot
    withdraw_root := beBytes 32 b.withdrawRoot
    data_hash := keccak (chunkDataBytes b)
    challenge_point := beBytes 32 b.challengePoint
    partResult := beBytes 32 b.partResult
    is_padding := is_padding }

/-- `ChunkHash::extract_hash_preimage` (lines 176-185):
`chain_id (8 bytes BE) ‖ prev_state_root ‖ post_state_root ‖
withdraw_root ‖ data_hash`. -/
def extract_hash_preimage (c : ChunkHash) : List Nat :=
  beBytes 8 c.chain_id ++ c.prev_state_root ++ c.post_state_root ++
    c.withdraw_root ++ c.data_hash

/-- `ChunkHash::public_input_hash` (lines 169-172), parametrized by the
external `keccak256`. -/
def public_input_hash (keccak : List Nat → List Nat) (c : ChunkHash) : List Nat :=
  keccak (extract_hash_preimage c)

/-- `ChunkHash::mock_padded_chunk_hash_for_testing` (lines 150-165): the
`assert!(!previous_chunk.is_padding)` failure is modelled as `none`; the
result copies every field and sets `is_padding` to `true`. -/
def mock_padded_chunk_hash_for_testing (previous_chunk : ChunkHash) :
    Option ChunkHash :=
  if previous_chunk.is_padding then none
  else
    some
      { chain_id := previous_chunk.chain_id
        prev_state_root := previous_chunk.prev_state_root
        post_state_root := previous_chunk.post_state_root
        withdraw_root := previous_chunk.withdraw_root
        data_hash := previous_chunk.data_hash
        challenge_point := previous_chunk.challenge_point
        partResult := previous_chunk.partResult
        is_padding := true }

/-- `ChunkHash::challenge_point` (lines 188-194): decode the stored
32-byte little-endian scalar (`Scalar::from_bytes`, `unwrap` modelled as
`Option`), then decompose its integer value into 3 limbs of 88 bits. -/
def challenge_point_limbs (c : ChunkHash) : Option (List Nat) :=
  (fpFromBytes c.challenge_point).map (fun fe => decompose3x88 (feToBigUInt fe))

/-- `ChunkHash::partial_result` (lines 197-201), embedded as
`partResult_limbs`: same decoding as `challenge_point_limbs` on the
stored partial result. -/
def partResult_limbs (c : ChunkHash) : Option (List Nat) :=
  (fpFromBytes c.partResult).map (fun fe => decompose3x88 (feToBigUInt fe))

/-! ## Concrete inputs used by witnesses and counterexamples -/

/-- A payload one byte beyond the maximum blob capacity. -/
def oversizedPayload : List Nat := List.replicate (4096 * 31 - 3) 0

/-- A witness block whose single transaction's payload is oversized. -/
def oversizedBlock : WitnessBlock :=
  { ctxs := [], txs := [⟨false, 0, 0, [], oversizedPayload⟩],
    chainId := 0, startL1QueueIndex := 0, prevStateRoot := 0,
    withdrawRoot := 0, challengePoint := 0, partResult := 0 }

/-- A witness block with no transactions at all (empty payload). -/
def emptyBlock : WitnessBlock :=
  { ctxs := [], txs := [],
    chainId := 0, startL1QueueIndex := 0, prevStateRoot := 0,
    withdrawRoot := 0, challengePoint := 0, partResult := 0 }

/-- A well-formed non-padding chunk used by witnesses. -/
def testChunk : ChunkHash :=
  { chain_id := 1,
    prev_state_root := List.replicate 32 0,
    post_state_root := List.replicate 32 0,
    withdraw_root := List.replicate 32 0,
    data_hash := List.replicate 32 0,
    challenge_point := List.replicate 32 0,
    partResult := List.replicate 32 0,
    is_padding := false }

/-- A chunk whose stored scalars are non-canonical (all bytes `255`,
encoding `2^256 − 1 ≥ p`). -/
def badScalarChunk : ChunkHash :=
  { chain_id := 1,
    prev_state_root := List.replicate 32 0,
    post_state_root := List.replicate 32 0,
    withdraw_root := List.replicate 32 0,
    data_hash := List.replicate 32 0,
    challenge_point := List.replicate 32 255,
    partResult := List.replicate 32 255,
    is_padding := false }

/-! ## Theorems -/

/-- The 32-byte groups emitted for the payload tail: each 31-byte chunk
becomes a zero byte, the chunk, and zero padding to 31 — 32 bytes per
chunk, `⌈n/31⌉` chunks in total. -/
theorem tail_groups_length :
    ∀ (fuel : Nat) (l : List Nat), l.length ≤ fuel →
      ((chunksOf 31 fuel l).flatMap
          (fun c => 0 :: (c ++ List.replicate (31 - c.length) 0))).length
        = 32 * ((l.length + 30) / 31) := by
  intro fuel
  induction fuel with
  | zero =>
    intro l hl
    have : l = [] := List.eq_nil_of_length_eq_zero (Nat.le_zero.mp hl)
    subst this
    simp [chunksOf]
  | succ n ih =>
    intro l hl
    match l with
    | [] => simp [chunksOf]
    | x :: xs =>
      have hdrop : ((x :: xs).drop 31).length ≤ n := by
        simp only [List.length_drop, List.length_cons]
        simp only [List.length_cons] at hl
        omega
      simp only [chunksOf, List.flatMap_cons, List.length_append, List.length_cons,
        List.length_replicate, ih _ hdrop, List.length_take, List.length_drop,
        List.length_cons]
      omega

/-- C4: `block_to_blob` output length — exactly 32 bytes for a payload of
length `L ≤ 27`; `32 + 32·⌈(L−27)/31⌉` bytes for `27 < L ≤ 4096·31−4`;
and a data-too-large error for `L > 4096·31−4`. -/
theorem block_to_blob_length (data : List Nat) :
    (data.length ≤ 27 →
      ∃ out, block_to_blob data = .ok out ∧ out.length = 32) ∧
    (27 < data.length → data.length ≤ 4096 * 31 - 4 →
      ∃ out, block_to_blob data = .ok out ∧
        out.length = 32 + 32 * ((data.length - 27 + 30) / 31)) ∧
    (4096 * 31 - 4 < data.length →
      ∃ msg, block_to_blob data = .error msg) := by
  refine ⟨?_, ?_, ?_⟩
  · intro h27
    have hmax : ¬ MAX_BLOB_DATA_SIZE < data.length := by
      simp only [MAX_BLOB_DATA_SIZE]; omega
    refine ⟨_, by rw [block_to_blob, if_neg hmax, if_pos h27], ?_⟩
    simp only [List.length_append, List.length_cons, List.length_nil,
      List.length_replicate, leBytes4, List.length_take]
    omega
  · intro h27 hmaxle
    have hmax : ¬ MAX_BLOB_DATA_SIZE < data.length := by
      simp only [MAX_BLOB_DATA_SIZE]; omega
    have h27' : ¬ data.length ≤ 27 := by omega
    refine ⟨_, by rw [block_to_blob, if_neg hmax, if_neg h27'], ?_⟩
    rw [List.length_append]
    rw [tail_groups_length (data.drop 27).length (data.drop 27) (Nat.le_refl _)]
    simp only [List.length_cons, List.length_append, List.length_nil, leBytes4,
      List.length_take, List.length_drop]
    omega
  · intro hbig
    have hmax : MAX_BLOB_DATA_SIZE < data.length := by
      simp only [MAX_BLOB_DATA_SIZE]; omega
    exact ⟨_, by rw [block_to_blob, if_pos hmax]⟩

/-- Witness for `block_to_blob_length`: payloads of length 10, 100 and
`4096·31−3` exercise the three cases. -/
theorem block_to_blob_length_witness :
    ((List.replicate 10 0).length ≤ 27 ∧
      ∃ out, block_to_blob (List.replicate 10 0) = .ok out ∧ out.length = 32) ∧
    (27 < (List.replicate 100 0).length ∧
      (List.replicate 100 0).length ≤ 4096 * 31 - 4 ∧
      ∃ out, block_to_blob (List.replicate 100 0) = .ok out ∧
        out.length = 32 + 32 * (((List.replicate 100 (0 : Nat)).length - 27 + 30) / 31)) ∧
    (4096 * 31 - 4 < oversizedPayload.length ∧
      ∃ msg, block_to_blob oversizedPayload = .error msg) :=
  ⟨⟨by rw [List.length_replicate]; norm_num,
      (block_to_blob_length _).1 (by rw [List.length_replicate]; norm_num)⟩,
    ⟨by rw [List.length_replicate]; norm_num,
      by rw [List.length_replicate]; norm_num,
      (block_to_blob_length _).2.1 (by rw [List.length_replicate]; norm_num)
        (by rw [List.length_replicate]; norm_num)⟩,
    ⟨by rw [oversizedPayload, List.length_replicate]; norm_num,
      (block_to_blob_length _).2.2
        (by rw [oversizedPayload, List.length_replicate]; norm_num)⟩⟩

/-! ### Structure of the encoder's 32-byte groups (claim C5) -/

/-- Both byte-value folds agree (little-endian of the reverse is the
big-endian value). -/
theorem foldl_be_comm (l : List Nat) :
    ∀ a, l.foldl (fun x y => y + 256 * x) a = l.foldl (fun x y => x * 256 + y) a := by
  induction l with
  | nil => intro a; rfl
  | cons b t ih =>
    intro a
    simp only [List.foldl_cons]
    rw [show b + 256 * a = a * 256 + b by ring]
    exact ih _

/-- `leVal` of a reversed list is the big-endian value of the list. -/
theorem leVal_reverse (l : List Nat) : leVal l.reverse = beVal l := by
  rw [leVal, beVal, List.foldr_reverse]
  exact foldl_be_comm l 0

/-- The big-endian fold of a byte list is bounded by
`(a + 1) · 256 ^ length`. -/
theorem beVal_fold_bound (l : List Nat) (h : ∀ x ∈ l, x < 256) :
    ∀ a, l.foldl (fun x y => x * 256 + y) a < (a + 1) * 256 ^ l.length := by
  induction l with
  | nil =>
    intro a
    simp only [List.foldl_nil, List.length_nil, pow_zero]
    omega
  | cons b t ih =>
    intro a
    simp only [List.foldl_cons, List.length_cons]
    have hb : b < 256 := h b (List.mem_cons_self b t)
    calc t.foldl (fun x y => x * 256 + y) (a * 256 + b)
        < (a * 256 + b + 1) * 256 ^ t.length :=
          ih (fun x hx => h x (List.mem_cons_of_mem b hx)) _
      _ ≤ ((a + 1) * 256) * 256 ^ t.length :=
          Nat.mul_le_mul_right _ (by omega)
      _ = (a + 1) * 256 ^ (t.length + 1) := by ring

/-- Every chunk produced by `chunksOf k` has length at most `k` and
draws its elements from the input list. -/
theorem chunksOf_mem (k : Nat) :
    ∀ fuel l c, c ∈ chunksOf k fuel l → c.length ≤ k ∧ ∀ x ∈ c, x ∈ l := by
  intro fuel
  induction fuel with
  | zero =>
    intro l c hc
    simp [chunksOf] at hc
  | succ n ih =>
    intro l c hc
    match l with
    | [] => simp [chunksOf] at hc
    | y :: ys =>
      rw [chunksOf] at hc
      rcases List.mem_cons.mp hc with rfl | hc
      · exact ⟨List.length_take_le _ _, fun x hx => List.mem_of_mem_take hx⟩
      · rcases ih _ c hc with ⟨h1, h2⟩
        exact ⟨h1, fun x hx => List.mem_of_mem_drop (h2 x hx)⟩

/-- The four length bytes are bytes. -/
theorem leBytes4_bytes (n : Nat) : ∀ x ∈ leBytes4 n, x < 256 := by
  intro x hx
  simp only [leBytes4, List.mem_cons, List.not_mem_nil, or_false] at hx
  rcases hx with rfl | rfl | rfl | rfl <;> exact Nat.mod_lt _ (by norm_num)

/-- Every successful `block_to_blob` output is a flat sequence of
32-byte groups, each beginning with a zero byte and made of bytes. -/
theorem block_to_blob_blocks (data : List Nat) (hb : ∀ x ∈ data, x < 256)
    (out : List Nat) (h : block_to_blob data = .ok out) :
    ∃ blocks : List (List Nat), out = blocks.flatten ∧
      ∀ g ∈ blocks, g.length = 32 ∧ g.headD 0 = 0 ∧ ∀ x ∈ g, x < 256 := by
  by_cases hmax : MAX_BLOB_DATA_SIZE < data.length
  · rw [block_to_blob, if_pos hmax] at h
    exact absurd h (by simp)
  · by_cases h27 : data.length ≤ 27
    · rw [block_to_blob, if_neg hmax, if_pos h27] at h
      injection h with h
      refine ⟨[out], by simp, ?_⟩
      intro g hg
      rw [List.mem_singleton] at hg
      subst hg
      rw [← h]
      refine ⟨?_, rfl, ?_⟩
      · simp only [List.length_append, List.length_cons, List.length_nil,
          List.length_replicate, leBytes4, List.length_take]
        omega
      · intro x hx
        rw [List.cons_append] at hx
        rcases List.mem_cons.mp hx with rfl | hx
        · norm_num
        rcases List.mem_append.mp hx with hx | hx
        · rcases List.mem_append.mp hx with hx | hx
          · exact leBytes4_bytes _ _ hx
          · exact hb x (List.mem_of_mem_take hx)
        · rw [List.eq_of_mem_replicate hx]
          norm_num
    · rw [block_to_blob, if_neg hmax, if_neg h27] at h
      injection h with h
      refine ⟨(0 :: (leBytes4 data.length ++ data.take 27)) ::
        (chunksOf 31 (data.drop 27).length (data.drop 27)).map
          (fun c => 0 :: (c ++ List.replicate (31 - c.length) 0)), ?_, ?_⟩
      · rw [← h, List.flatten_cons, List.flatMap_def]
      · intro g hg
        rcases List.mem_cons.mp hg with rfl | hg
        · refine ⟨?_, rfl, ?_⟩
          · simp only [List.length_cons, List.length_append, List.length_nil,
              leBytes4, List.length_take]
            omega
          · intro x hx
            rcases List.mem_cons.mp hx with rfl | hx
            · norm_num
            rcases List.mem_append.mp hx with hx | hx
            · exact leBytes4_bytes _ _ hx
            · exact hb x (List.mem_of_mem_take hx)
        · rcases List.mem_map.mp hg with ⟨c, hc, rfl⟩
          rcases chunksOf_mem 31 _ _ c hc with ⟨hclen, hcsub⟩
          refine ⟨?_, rfl, ?_⟩
          · simp only [List.length_cons, List.length_append,
              List.length_replicate]
            omega
          · intro x hx
            rcases List.mem_cons.mp hx with rfl | hx
            · norm_num
            rcases List.mem_append.mp hx with hx | hx
            · exact hb x (List.mem_of_mem_drop (hcsub x hx))
            · rw [List.eq_of_mem_replicate hx]
              norm_num

/-- The lengths of uniform 32-byte blocks sum to `32 ·` their count. -/
theorem flatten_length_32 (blocks : List (List Nat))
    (h32 : ∀ g ∈ blocks, g.length = 32) :
    blocks.flatten.length = 32 * blocks.length := by
  induction blocks with
  | nil => simp
  | cons g t ih =>
    rw [List.flatten_cons, List.length_append, h32 g (List.mem_cons_self g t),
      ih (fun g hg => h32 g (List.mem_cons_of_mem _ hg)), List.length_cons]
    ring

/-- Extracting the `j`-th 32-byte group of a flat sequence of 32-byte
blocks yields the `j`-th block. -/
theorem flatten_group (blocks : List (List Nat))
    (h32 : ∀ g ∈ blocks, g.length = 32) :
    ∀ j, 32 * j < blocks.flatten.length →
      (blocks.flatten.drop (32 * j)).take 32 = blocks.getD j [] := by
  induction blocks with
  | nil =>
    intro j hj
    simp at hj
  | cons g t ih =>
    intro j hj
    have hg := h32 g (List.mem_cons_self g t)
    match j with
    | 0 =>
      simp only [Nat.mul_zero, List.drop_zero, List.flatten_cons]
      rw [show (32 : Nat) = g.length from hg.symm, List.take_left,
        List.getD_cons_zero]
    | j + 1 =>
      rw [List.flatten_cons, show 32 * (j + 1) = g.length + 32 * j by omega,
        ← List.drop_drop, List.drop_left, List.getD_cons_succ]
      apply ih (fun g hg => h32 g (List.mem_cons_of_mem _ hg))
      rw [List.flatten_cons, List.length_append] at hj
      omega

/-- C5: every 32-byte group of a successful `block_to_blob` output
begins with a zero byte, its big-endian value is below `2 ^ 248`, and —
after the byte reversal `partial_blob` performs — it decodes as a
canonical foreign-field scalar (the decode never fails), for any payload
bytes whatsoever. -/
theorem blob_groups_canonical (data out : List Nat)
    (hb : ∀ x ∈ data, x < 256) (h : block_to_blob data = .ok out)
    (j : Nat) (hj : 32 * j < out.length) :
    ((out.drop (32 * j)).take 32).headD 0 = 0 ∧
    beVal ((out.drop (32 * j)).take 32) < 2 ^ 248 ∧
    (fpFromBytes ((out.drop (32 * j)).take 32).reverse).isSome := by
  obtain ⟨blocks, rfl, hB⟩ := block_to_blob_blocks data hb out h
  rw [flatten_group blocks (fun g hg => (hB g hg).1) j hj]
  have hjlen : j < blocks.length := by
    rw [flatten_length_32 blocks (fun g hg => (hB g hg).1)] at hj
    omega
  have hmem : blocks.getD j [] ∈ blocks := by
    rw [List.getD_eq_getElem blocks [] hjlen]
    exact List.getElem_mem hjlen
  obtain ⟨hlen32, hhead, hbytes⟩ := hB _ hmem
  match hg : blocks.getD j [] with
  | [] => rw [hg] at hlen32; simp at hlen32
  | b :: rest =>
    rw [hg] at hlen32 hhead hbytes
    have hb0 : b = 0 := hhead
    subst hb0
    have hrest : ∀ x ∈ rest, x < 256 :=
      fun x hx => hbytes x (List.mem_cons_of_mem _ hx)
    have hbound : beVal (0 :: rest) < 2 ^ 248 := by
      rw [beVal, List.foldl_cons]
      have := beVal_fold_bound rest hrest (0 * 256 + 0)
      have hlen : rest.length = 31 := by
        rw [List.length_cons] at hlen32
        omega
      rw [hlen] at this
      calc List.foldl (fun x y => x * 256 + y) (0 * 256 + 0) rest
          < (0 * 256 + 0 + 1) * 256 ^ 31 := this
        _ = 2 ^ 248 := by norm_num
    refine ⟨rfl, hbound, ?_⟩
    rw [fpFromBytes, leVal_reverse, if_pos ?hlt]
    · rfl
    case hlt =>
      calc beVal (0 :: rest) < 2 ^ 248 := hbound
        _ < blsScalarModulus := by norm_num [blsScalarModulus]

/-- Witness for `blob_groups_canonical`: the payload `[1, 2, 3]` and its
single output group. -/
theorem blob_groups_canonical_witness :
    (∀ x ∈ [1, 2, 3], x < 256) ∧
    block_to_blob [1, 2, 3] =
      .ok [0, 3, 0, 0, 0, 1, 2, 3, 0, 0, 0, 0, 0, 0, 0, 0,
           0, 0, 0, 0, 0, 0, 0, 0, 0, 0, 0, 0, 0, 0, 0, 0] ∧
    32 * 0 <
      ([0, 3, 0, 0, 0, 1, 2, 3, 0, 0, 0, 0, 0, 0, 0, 0,
        0, 0, 0, 0, 0, 0, 0, 0, 0, 0, 0, 0, 0, 0, 0, 0] : List Nat).length ∧
    ((([0, 3, 0, 0, 0, 1, 2, 3, 0, 0, 0, 0, 0, 0, 0, 0,
        0, 0, 0, 0, 0, 0, 0, 0, 0, 0, 0, 0, 0, 0, 0, 0] : List Nat).drop
          (32 * 0)).take 32).headD 0 = 0 ∧
    beVal ((([0, 3, 0, 0, 0, 1, 2, 3, 0, 0, 0, 0, 0, 0, 0, 0,
        0, 0, 0, 0, 0, 0, 0, 0, 0, 0, 0, 0, 0, 0, 0, 0] : List Nat).drop
          (32 * 0)).take 32) < 2 ^ 248 ∧
    (fpFromBytes ((([0, 3, 0, 0, 0, 1, 2, 3, 0, 0, 0, 0, 0, 0, 0, 0,
        0, 0, 0, 0, 0, 0, 0, 0, 0, 0, 0, 0, 0, 0, 0, 0] : List Nat).drop
          (32 * 0)).take 32).reverse).isSome := by
  have h := blob_groups_canonical [1, 2, 3]
    [0, 3, 0, 0, 0, 1, 2, 3, 0, 0, 0, 0, 0, 0, 0, 0,
     0, 0, 0, 0, 0, 0, 0, 0, 0, 0, 0, 0, 0, 0, 0, 0]
    (by decide) rfl 0 (by decide)
  exact ⟨by decide, rfl, by decide, h.1, h.2.1, h.2.2⟩

/-! ### Modular-exponentiation correctness and cast bridge -/

/-- `powModAux` computes `b ^ e % m` whenever the fuel covers the
exponent. -/
theorem powModAux_correct (m : Nat) :
    ∀ fuel b e, e < 2 ^ fuel → powModAux m fuel b e = b ^ e % m := by
  intro fuel
  induction fuel with
  | zero =>
    intro b e he
    have he0 : e = 0 := by
      have : (2 : Nat) ^ 0 = 1 := by norm_num
      omega
    subst he0
    simp [powModAux]
  | succ n ih =>
    intro b e he
    rw [powModAux]
    by_cases h0 : e = 0
    · subst h0
      simp
    · rw [if_neg h0]
      have he2 : e / 2 < 2 ^ n := by
        have h2 : (2 : Nat) ^ (n + 1) = 2 * 2 ^ n := by ring
        omega
      rw [ih (b * b % m) (e / 2) he2]
      have hbb : (b * b % m) ^ (e / 2) % m = (b * b) ^ (e / 2) % m := by
        rw [← Nat.pow_mod]
      by_cases h1 : e % 2 = 1
      · rw [if_pos h1, hbb, Nat.mod_mul_mod, ← pow_two b, ← pow_mul, ← pow_succ,
          show 2 * (e / 2) + 1 = e by omega]
      · rw [if_neg h1, hbb, ← pow_two b, ← pow_mul,
          show 2 * (e / 2) = e by omega]

/-- `powMod` computes `b ^ e % m` for any exponent below `2 ^ 256`. -/
theorem powMod_correct (m b e : Nat) (he : e < 2 ^ 256) :
    powMod m b e = b ^ e % m :=
  powModAux_correct m 256 b e he

/-- Powers of a cast, computed through `powMod`. -/
theorem castPow_eq_powMod (b e : Nat) (he : e < 2 ^ 256) :
    ((b : Fp)) ^ e = ((powMod blsScalarModulus b e : Nat) : Fp) := by
  rw [powMod_correct _ _ _ he, ZMod.natCast_mod, Nat.cast_pow]

/-- A `Nat` whose residue is not `1` does not cast to `1` in `Fp`. -/
theorem natCast_ne_one_of_mod (a : Nat) (h : a % blsScalarModulus ≠ 1) :
    (a : Fp) ≠ 1 := by
  intro hcast
  apply h
  have hval := congrArg ZMod.val hcast
  rwa [ZMod.val_natCast, ZMod.val_one] at hval

/-- A `Nat` whose residue is `1` casts to `1` in `Fp`. -/
theorem natCast_eq_one_of_mod (a : Nat) (h : a % blsScalarModulus = 1) :
    (a : Fp) = 1 := by
  rw [← ZMod.natCast_mod, h, Nat.cast_one]

/-- `bitReverse bits i` is a `bits`-bit number. -/
theorem bitReverse_lt (bits i : Nat) : bitReverse bits i < 2 ^ bits := by
  induction bits with
  | zero => simp [bitReverse]
  | succ n ih =>
    rw [bitReverse, List.range_succ, List.foldl_append]
    rw [bitReverse] at ih
    simp only [List.foldl_cons, List.foldl_nil]
    have hbit : i / 2 ^ n % 2 < 2 := Nat.mod_lt _ (by norm_num)
    have h2 : (2 : Nat) ^ (n + 1) = 2 ^ n * 2 := by ring
    omega

/-- `getD` on a mapped range evaluates the function. -/
theorem getD_map_range {α : Type} (f : Nat → α) {n i : Nat} (hi : i < n) (d : α) :
    ((List.range n).map f).getD i d = f i := by
  rw [List.getD_eq_getElem?_getD, List.getElem?_map, List.getElem?_range hi]
  rfl

set_option maxRecDepth 100000 in
/-- C3 (domain builder versus its spec): the value the code feeds the
domain builder, `123 ^ (FP_S − BLOB_WIDTH_BITS)`, is *not* a
`BLOB_WIDTH`-th root of unity (its `BLOB_WIDTH`-th power differs from
`1`), whereas the spec's `generator^((p−1)/BLOB_WIDTH)` is a primitive
one; no exponent `s ≤ 64` makes `123 ^ s` a primitive `BLOB_WIDTH`-th
root, so the divergence is independent of the exact value of the absent
`FP_S` constant.  The bit-reversal layout itself is as specified:
position `i` of the permuted domain holds the power with the
bit-reversed index. -/
theorem root_of_unity_code_bug :
    blob_width_th_root_of_unity ^ BLOB_WIDTH ≠ 1 ∧
    specRootOfUnity ^ BLOB_WIDTH = 1 ∧
    specRootOfUnity ^ (BLOB_WIDTH / 2) ≠ 1 ∧
    (∀ s ∈ Finset.range 65,
      ¬(powMod blsScalarModulus (powMod blsScalarModulus 123 s) BLOB_WIDTH = 1 ∧
        powMod blsScalarModulus (powMod blsScalarModulus 123 s)
          (BLOB_WIDTH / 2) ≠ 1)) ∧
    (∀ i, i < BLOB_WIDTH →
      roots_of_unity_brp.getD i 0 =
        blob_width_th_root_of_unity ^ bitReverse BLOB_WIDTH_BITS i) := by
  refine ⟨?_, ?_, ?_, by decide, ?_⟩
  · have hcode : blob_width_th_root_of_unity ^ BLOB_WIDTH =
        ((powMod blsScalarModulus
          (powMod blsScalarModulus 123 (FP_S - BLOB_WIDTH_BITS))
          BLOB_WIDTH : Nat) : Fp) := by
      rw [blob_width_th_root_of_unity,
        show ((123 : Fp)) = ((123 : Nat) : Fp) by norm_num,
        castPow_eq_powMod 123 (FP_S - BLOB_WIDTH_BITS) (by decide),
        castPow_eq_powMod _ BLOB_WIDTH (by decide)]
    rw [hcode]
    exact natCast_ne_one_of_mod _ (by decide)
  · have hexp : (blsScalarModulus - 1) / BLOB_WIDTH < 2 ^ 256 := by
      have h1 : (blsScalarModulus - 1) / BLOB_WIDTH ≤ blsScalarModulus - 1 :=
        Nat.div_le_self _ _
      have h2 : blsScalarModulus - 1 < 2 ^ 256 := by norm_num [blsScalarModulus]
      omega
    have hspec : specRootOfUnity ^ BLOB_WIDTH =
        ((powMod blsScalarModulus
          (powMod blsScalarModulus 7 ((blsScalarModulus - 1) / BLOB_WIDTH))
          BLOB_WIDTH : Nat) : Fp) := by
      rw [specRootOfUnity,
        show ((7 : Fp)) = ((7 : Nat) : Fp) by norm_num,
        castPow_eq_powMod 7 _ hexp,
        castPow_eq_powMod _ BLOB_WIDTH (by decide)]
    rw [hspec]
    exact natCast_eq_one_of_mod _ (by decide)
  · have hexp : (blsScalarModulus - 1) / BLOB_WIDTH < 2 ^ 256 := by
      have h1 : (blsScalarModulus - 1) / BLOB_WIDTH ≤ blsScalarModulus - 1 :=
        Nat.div_le_self _ _
      have h2 : blsScalarModulus - 1 < 2 ^ 256 := by norm_num [blsScalarModulus]
      omega
    have hspec : specRootOfUnity ^ (BLOB_WIDTH / 2) =
        ((powMod blsScalarModulus
          (powMod blsScalarModulus 7 ((blsScalarModulus - 1) / BLOB_WIDTH))
          (BLOB_WIDTH / 2) : Nat) : Fp) := by
      rw [specRootOfUnity,
        show ((7 : Fp)) = ((7 : Nat) : Fp) by norm_num,
        castPow_eq_powMod 7 _ hexp,
        castPow_eq_powMod _ (BLOB_WIDTH / 2) (by decide)]
    rw [hspec]
    exact natCast_ne_one_of_mod _ (by decide)
  · intro i hi
    have hlen : roots_of_unity.length = BLOB_WIDTH := by
      rw [roots_of_unity, List.length_map, List.length_range]
    have hrev : bitReverse BLOB_WIDTH_BITS i < BLOB_WIDTH := by
      have h1 := bitReverse_lt BLOB_WIDTH_BITS i
      have h2 : (2 : Nat) ^ BLOB_WIDTH_BITS = BLOB_WIDTH := by decide
      omega
    rw [roots_of_unity_brp, bit_reversal_permutation, hlen,
      getD_map_range _ hi, roots_of_unity, getD_map_range _ hrev]

/-- Witness for `root_of_unity_code_bug`'s bounded quantifiers: the
standard `FP_S = 32` instance (`s = 20`) and domain position `5`. -/
theorem root_of_unity_code_bug_witness :
    (20 ∈ Finset.range 65 ∧
      ¬(powMod blsScalarModulus (powMod blsScalarModulus 123 20) BLOB_WIDTH = 1 ∧
        powMod blsScalarModulus (powMod blsScalarModulus 123 20)
          (BLOB_WIDTH / 2) ≠ 1)) ∧
    (5 < BLOB_WIDTH ∧
      roots_of_unity_brp.getD 5 0 =
        blob_width_th_root_of_unity ^ bitReverse BLOB_WIDTH_BITS 5) :=
  ⟨⟨by decide, root_of_unity_code_bug.2.2.2.1 20 (by decide)⟩,
    ⟨by decide, root_of_unity_code_bug.2.2.2.2 5 (by decide)⟩⟩

/-! ### Helper lemmas for the barycentric-evaluation claims -/

/-- The flag component of the in-window fold is the product of the
`1 - is_zero` factors at the window positions. -/
theorem foldl_inWindow_flag (z : Fp) (index : Nat) (blob : List Fp)
    (l : List Nat) (acc : EvalAcc) :
    (l.foldl (inWindowStep z index blob) acc).flag
      = acc.flag *
        (l.map fun i =>
          1 - isZeroIndicator (z - roots_of_unity_brp.getD (i + index) 0)).prod := by
  induction l generalizing acc with
  | nil => simp
  | cons a t ih =>
    rw [List.foldl_cons, ih]
    simp [inWindowStep, mul_assoc]

/-- The result component of the in-window fold is the sum of the
indicator-selected blob values. -/
theorem foldl_inWindow_result (z : Fp) (index : Nat) (blob : List Fp)
    (l : List Nat) (acc : EvalAcc) :
    (l.foldl (inWindowStep z index blob) acc).result
      = acc.result +
        (l.map fun i =>
          blob.getD i 0 *
            isZeroIndicator (z - roots_of_unity_brp.getD (i + index) 0)).sum := by
  induction l generalizing acc with
  | nil => simp
  | cons a t ih =>
    rw [List.foldl_cons, ih]
    simp [inWindowStep, add_assoc]

/-- The out-of-window fold multiplies the accumulator by the
`1 - is_zero` factors at its positions. -/
theorem foldl_outWindow (z : Fp) (l : List Nat) (acc : Fp) :
    l.foldl (outWindowStep z) acc
      = acc *
        (l.map fun i =>
          1 - isZeroIndicator (z - roots_of_unity_brp.getD i 0)).prod := by
  induction l generalizing acc with
  | nil => simp
  | cons a t ih =>
    rw [List.foldl_cons, ih]
    simp [outWindowStep, mul_assoc]

/-- `1 - is_zero(z - d)` is the 0/1 indicator of `z ≠ d`. -/
theorem one_sub_indicator (z d : Fp) :
    1 - isZeroIndicator (z - d) = if z = d then 0 else 1 := by
  by_cases h : z = d <;> simp [isZeroIndicator, sub_eq_zero, h]

/-- `is_zero(z - d)` is the 0/1 indicator of `z = d`. -/
theorem indicator_eq (z d : Fp) :
    isZeroIndicator (z - d) = if z = d then 1 else 0 := by
  by_cases h : z = d <;> simp [isZeroIndicator, sub_eq_zero, h]

/-- A product of 0/1 field elements is `1` exactly when every factor
is `1`. -/
theorem prod_zero_one_eq_one {l : List Fp} (h : ∀ x ∈ l, x = 0 ∨ x = 1) :
    l.prod = 1 ↔ ∀ x ∈ l, x = 1 := by
  induction l with
  | nil => simp
  | cons a t ih =>
    simp only [List.prod_cons, List.mem_cons]
    rcases h a (List.mem_cons_self a t) with ha | ha
    · constructor
      · intro h1
        rw [ha, zero_mul] at h1
        exact absurd h1 zero_ne_one
      · intro hall
        have := hall a (Or.inl rfl)
        rw [ha] at this
        exact absurd this zero_ne_one
    · rw [ha, one_mul, ih (fun x hx => h x (List.mem_cons_of_mem a hx))]
      constructor
      · intro hall x hx
        rcases hx with rfl | hx
        · rfl
        · exact hall x hx
      · intro hall x hx
        exact hall x (Or.inr hx)

/-- The positions visited by the two loops of `assign` are exactly
`0 ≤ i < BLOB_WIDTH`. -/
theorem window_positions_cover (index len i : Nat) (h : index + len ≤ BLOB_WIDTH) :
    (i ∈ (List.range len).map (· + index) ++
        (List.range index ++
          List.range' (index + len) (BLOB_WIDTH - (index + len)))) ↔
      i < BLOB_WIDTH := by
  simp only [List.mem_append, List.mem_map, List.mem_range, List.mem_range'_1]
  constructor
  · rintro (⟨a, ha, rfl⟩ | hi | hi) <;> omega
  · intro hi
    by_cases h1 : i < index
    · exact Or.inr (Or.inl h1)
    · by_cases h2 : i < index + len
      · exact Or.inl ⟨i - index, by omega, by omega⟩
      · exact Or.inr (Or.inr ⟨by omega, by omega⟩)

/-- The list-level sum over `List.range` agrees with the `Finset.range`
sum. -/
theorem list_range_map_sum (f : Nat → Fp) (n : Nat) :
    ((List.range n).map f).sum = ∑ i ∈ Finset.range n, f i := by
  induction n with
  | zero => simp
  | succ m ih =>
    rw [List.range_succ, List.map_append, List.sum_append, ih,
      Finset.sum_range_succ]
    simp

/-- C2: the final `cp_is_not_root_of_unity` flag equals `1` exactly when
the challenge point differs from every one of the `BLOB_WIDTH` permuted
domain values (the indicator is folded in for every position `0 ≤ i <
BLOB_WIDTH`, in and out of the held window), and the final result is
`direct-lookup-result + barycentric-sum · flag`. -/
theorem final_flag_iff (z : Fp) (index : Nat) (blob : List Fp)
    (h : index + blob.length ≤ BLOB_WIDTH) :
    (finalFlag z index blob = 1 ↔
      ∀ i, i < BLOB_WIDTH → z ≠ roots_of_unity_brp.getD i 0) ∧
    assign z index blob =
      (assignAcc z index blob).result +
        (assignAcc z index blob).eval * barycentricFactor z *
          finalFlag z index blob := by
  refine ⟨?_, rfl⟩
  rw [finalFlag, foldl_outWindow, assignAcc, foldl_inWindow_flag]
  have hinit : (⟨0, 1, 0⟩ : EvalAcc).flag = 1 := rfl
  rw [hinit, one_mul]
  have hin : ((List.range blob.length).map fun i =>
      1 - isZeroIndicator (z - roots_of_unity_brp.getD (i + index) 0)) =
      (((List.range blob.length).map (· + index)).map fun i =>
        1 - isZeroIndicator (z - roots_of_unity_brp.getD i 0)) := by
    rw [List.map_map]
    rfl
  rw [hin, ← List.prod_append, ← List.map_append]
  have h01 : ∀ x ∈ ((List.range blob.length).map (· + index) ++
      (List.range index ++
        List.range' (index + blob.length)
          (BLOB_WIDTH - (index + blob.length)))).map
        (fun i => 1 - isZeroIndicator (z - roots_of_unity_brp.getD i 0)),
      x = 0 ∨ x = 1 := by
    intro x hx
    rcases List.mem_map.mp hx with ⟨i, _, rfl⟩
    rw [one_sub_indicator]
    by_cases hzi : z = roots_of_unity_brp.getD i 0
    · exact Or.inl (if_pos hzi)
    · exact Or.inr (if_neg hzi)
  rw [prod_zero_one_eq_one h01]
  constructor
  · intro hall i hi
    have hmem := List.mem_map_of_mem
      (fun i => 1 - isZeroIndicator (z - roots_of_unity_brp.getD i 0))
      ((window_positions_cover index blob.length i h).mpr hi)
    have h1 : 1 - isZeroIndicator (z - roots_of_unity_brp.getD i 0) = 1 :=
      hall _ hmem
    rw [one_sub_indicator] at h1
    intro hz
    rw [if_pos hz] at h1
    exact zero_ne_one h1
  · intro hne x hx
    rcases List.mem_map.mp hx with ⟨i, hi, rfl⟩
    rw [one_sub_indicator,
      if_neg (hne i ((window_positions_cover index blob.length i h).mp hi))]

/-- Witness for `final_flag_iff` at `z = 0`, `index = 0`, empty window. -/
theorem final_flag_iff_witness :
    (0 + ([] : List Fp).length ≤ BLOB_WIDTH) ∧
    ((finalFlag 0 0 [] = 1 ↔
        ∀ i, i < BLOB_WIDTH → (0 : Fp) ≠ roots_of_unity_brp.getD i 0) ∧
      assign 0 0 [] =
        (assignAcc 0 0 []).result +
          (assignAcc 0 0 []).eval * barycentricFactor 0 * finalFlag 0 0 []) :=
  ⟨by rw [List.length_nil, BLOB_WIDTH]; norm_num,
    final_flag_iff 0 0 [] (by rw [List.length_nil, BLOB_WIDTH]; norm_num)⟩

/-- C1: for a challenge point equal to the permuted domain value at a
position `k` inside the held window `[index, index+len)` (the window's
domain points being pairwise distinct), `assign`'s result is exactly
`blob[k - index]` — the direct-lookup value selected by the
zero-denominator indicator, independent of the barycentric sum — and
every safe denominator is nonzero, so the division never fails. -/
theorem assign_at_domain_point (blob : List Fp) (index k : Nat)
    (hk1 : index ≤ k) (hk2 : k < index + blob.length)
    (hlen : index + blob.length ≤ BLOB_WIDTH)
    (hdist : ∀ j, index ≤ j → j < index + blob.length → j ≠ k →
      roots_of_unity_brp.getD j 0 ≠ roots_of_unity_brp.getD k 0) :
    assign (roots_of_unity_brp.getD k 0) index blob = blob.getD (k - index) 0 ∧
    ∀ d : Fp, d + isZeroIndicator d ≠ 0 := by
  constructor
  · set z := roots_of_unity_brp.getD k 0 with hz
    have hflag : finalFlag z index blob = 0 := by
      rw [finalFlag, foldl_outWindow, assignAcc, foldl_inWindow_flag]
      have hmem : (0 : Fp) ∈ (List.range blob.length).map fun i =>
          1 - isZeroIndicator (z - roots_of_unity_brp.getD (i + index) 0) := by
        refine List.mem_map.mpr ⟨k - index, List.mem_range.mpr (by omega), ?_⟩
        rw [show k - index + index = k by omega, one_sub_indicator, if_pos hz]
      rw [List.prod_eq_zero hmem]
      ring
    have hres : (assignAcc z index blob).result = blob.getD (k - index) 0 := by
      rw [assignAcc, foldl_inWindow_result]
      have hinit : (⟨0, 1, 0⟩ : EvalAcc).result = 0 := rfl
      rw [hinit, zero_add, list_range_map_sum]
      have hmem0 : k - index ∈ Finset.range blob.length :=
        Finset.mem_range.mpr (by omega)
      rw [Finset.sum_eq_single_of_mem (k - index) hmem0 ?side]
      · rw [show k - index + index = k by omega, indicator_eq, if_pos hz, mul_one]
      case side =>
        intro b hb hbne
        have hb' := Finset.mem_range.mp hb
        rw [indicator_eq, if_neg, mul_zero]
        intro hzb
        exact hdist (b + index) (by omega) (by omega) (by omega)
          (hzb.symm.trans hz)
    rw [assign, hflag, mul_zero, add_zero, hres]
  · intro d
    by_cases hd : d = 0
    · rw [hd]
      simp [isZeroIndicator]
    · simp [isZeroIndicator, hd]

/-- Witness for `assign_at_domain_point`: the window `[0, 1)` with a
one-element blob and the challenge point at domain position `0`. -/
theorem assign_at_domain_point_witness :
    ((0 : Nat) ≤ 0 ∧ 0 < 0 + [(2 : Fp)].length ∧
      0 + [(2 : Fp)].length ≤ BLOB_WIDTH) ∧
    assign (roots_of_unity_brp.getD 0 0) 0 [(2 : Fp)] = 2 ∧
    ∀ d : Fp, d + isZeroIndicator d ≠ 0 := by
  have h := assign_at_domain_point [(2 : Fp)] 0 0 (Nat.le_refl 0)
    (by rw [List.length_cons, List.length_nil]; norm_num)
    (by rw [List.length_cons, List.length_nil, BLOB_WIDTH]; norm_num)
    (fun j h1 h2 hne => by
      rw [List.length_cons, List.length_nil] at h2
      exact absurd (by omega : j = 0) hne)
  refine ⟨⟨Nat.le_refl 0,
    by rw [List.length_cons, List.length_nil]; norm_num,
    by rw [List.length_cons, List.length_nil, BLOB_WIDTH]; norm_num⟩, ?_, h.2⟩
  have h1 := h.1
  simpa using h1

/-! ### Chunk-hash builder claims -/

/-- The source's header fold (mutable cursor, accumulated bytes) emits
exactly the spec's recursive header stream. -/
theorem chunk_headers_eq (txs : List Transaction) :
    ∀ (ctxs : List (Nat × BlockContext)) (cursor : Nat) (bytes : List Nat),
      (ctxs.foldl
        (fun (acc : Nat × List Nat) (p : Nat × BlockContext) =>
          let numL1 := numL1Msgs txs p.1 acc.1
          ((acc.1 + numL1) % U64MOD,
            acc.2 ++ blockHeaderBytes p.2 (numL2Txs txs p.1 + numL1)))
        (cursor, bytes)).2 = bytes ++ specHeaderBytes txs cursor ctxs := by
  intro ctxs
  induction ctxs with
  | nil =>
    intro cursor bytes
    simp [specHeaderBytes]
  | cons p rest ih =>
    intro cursor bytes
    simp only [List.foldl_cons]
    rw [ih, specHeaderBytes, List.append_assoc]

/-- C6: the chunk's `data_hash` is the keccak-256 of the byte stream the
spec describes — ascending-block-order headers (8-byte number, 8-byte
timestamp, 32-byte base fee, 8-byte gas limit, 2-byte L2+L1 transaction
count with the cursor-advanced L1 count), then every transaction hash in
witness order; an empty chunk hashes the empty stream. -/
theorem data_hash_spec (keccak : List Nat → List Nat) (b : WitnessBlock)
    (pad : Bool) :
    (from_witness_block keccak b pad).data_hash = keccak (specDataBytes b) ∧
    (b.ctxs = [] → b.txs = [] →
      (from_witness_block keccak b pad).data_hash = keccak []) := by
  have hmain : (from_witness_block keccak b pad).data_hash =
      keccak (specDataBytes b) := by
    show keccak (chunkDataBytes b) = keccak (specDataBytes b)
    rw [chunkDataBytes, specDataBytes, chunk_headers_eq, List.nil_append]
  refine ⟨hmain, fun hc ht => ?_⟩
  rw [hmain, specDataBytes, hc, ht]
  rfl

/-- Witness for `data_hash_spec` on the empty chunk (with the identity
standing in for the external keccak function). -/
theorem data_hash_spec_witness :
    ((from_witness_block (fun l => l) emptyBlock false).data_hash =
      (fun l : List Nat => l) (specDataBytes emptyBlock)) ∧
    (emptyBlock.ctxs = [] ∧ emptyBlock.txs = [] ∧
      (from_witness_block (fun l => l) emptyBlock false).data_hash =
        (fun l : List Nat => l) []) :=
  ⟨(data_hash_spec (fun l => l) emptyBlock false).1,
    ⟨rfl, rfl, (data_hash_spec (fun l => l) emptyBlock false).2 rfl rfl⟩⟩

/-- `beBytes w n` always has exactly `w` bytes. -/
theorem beBytes_length (w : Nat) : ∀ n, (beBytes w n).length = w := by
  induction w with
  | zero => intro n; rfl
  | succ k ih =>
    intro n
    rw [beBytes, List.length_append, ih]
    simp

/-- C7 counterexample: on a well-formed chunk (all four hashes 32 bytes
long) the hash preimage is 136 bytes — `8 + 4·32` — not the 104 bytes
the claim states. -/
theorem public_input_hash_104_cex :
    (extract_hash_preimage testChunk).length = 136 ∧
    (extract_hash_preimage testChunk).length ≠ 104 := by
  have h : (extract_hash_preimage testChunk).length = 136 := by
    rw [extract_hash_preimage]
    simp only [List.length_append, beBytes_length, testChunk,
      List.length_replicate]
  exact ⟨h, by rw [h]; norm_num⟩

/-- C7 (amended): `public_input_hash` is the keccak-256 of exactly the
136-byte concatenation `chain_id (8 bytes BE) ‖ prev_state_root ‖
post_state_root ‖ withdraw_root ‖ data_hash` (8 + 4·32 = 136 bytes);
the `challenge_point` and `partial_result` fields do not influence the
result. -/
theorem public_input_hash_spec (keccak : List Nat → List Nat) (c : ChunkHash)
    (h1 : c.prev_state_root.length = 32) (h2 : c.post_state_root.length = 32)
    (h3 : c.withdraw_root.length = 32) (h4 : c.data_hash.length = 32) :
    public_input_hash keccak c =
      keccak (beBytes 8 c.chain_id ++ c.prev_state_root ++ c.post_state_root ++
        c.withdraw_root ++ c.data_hash) ∧
    (extract_hash_preimage c).length = 136 ∧
    (∀ cp pr,
      public_input_hash keccak
        { c with challenge_point := cp, partResult := pr } =
        public_input_hash keccak c) := by
  refine ⟨rfl, ?_, fun cp pr => rfl⟩
  rw [extract_hash_preimage]
  simp only [List.length_append, h1, h2, h3, h4, beBytes_length]

/-- Witness for `public_input_hash_spec` on a concrete chunk. -/
theorem public_input_hash_spec_witness :
    (testChunk.prev_state_root.length = 32 ∧
      testChunk.post_state_root.length = 32 ∧
      testChunk.withdraw_root.length = 32 ∧
      testChunk.data_hash.length = 32) ∧
    (public_input_hash (fun l => l) testChunk =
      (fun l : List Nat => l) (beBytes 8 testChunk.chain_id ++
        testChunk.prev_state_root ++ testChunk.post_state_root ++
        testChunk.withdraw_root ++ testChunk.data_hash) ∧
      (extract_hash_preimage testChunk).length = 136 ∧
      (∀ cp pr,
        public_input_hash (fun l => l)
          { testChunk with challenge_point := cp, partResult := pr } =
          public_input_hash (fun l => l) testChunk)) := by
  have hl : (List.replicate 32 (0 : Nat)).length = 32 := by
    rw [List.length_replicate]
  exact ⟨⟨hl, hl, hl, hl⟩,
    public_input_hash_spec (fun l => l) testChunk hl hl hl hl⟩

/-- C8: padding a non-padding chunk copies every field byte-for-byte and
only flips `is_padding` to `true`; padding an already-padded chunk fails
(the `assert!` fires); hence padding twice is impossible. -/
theorem padded_chunk_spec (c : ChunkHash) :
    (¬c.is_padding = true →
      ∃ c', mock_padded_chunk_hash_for_testing c = some c' ∧
        c'.chain_id = c.chain_id ∧ c'.prev_state_root = c.prev_state_root ∧
        c'.post_state_root = c.post_state_root ∧
        c'.withdraw_root = c.withdraw_root ∧ c'.data_hash = c.data_hash ∧
        c'.challenge_point = c.challenge_point ∧
        c'.partResult = c.partResult ∧ c'.is_padding = true) ∧
    (c.is_padding = true → mock_padded_chunk_hash_for_testing c = none) ∧
    (∀ c', mock_padded_chunk_hash_for_testing c = some c' →
      mock_padded_chunk_hash_for_testing c' = none) := by
  refine ⟨?_, ?_, ?_⟩
  · intro h
    rw [mock_padded_chunk_hash_for_testing, if_neg h]
    exact ⟨_, rfl, rfl, rfl, rfl, rfl, rfl, rfl, rfl, rfl⟩
  · intro h
    rw [mock_padded_chunk_hash_for_testing, if_pos h]
  · intro c' h
    by_cases hp : c.is_padding = true
    · rw [mock_padded_chunk_hash_for_testing, if_pos hp] at h
      exact absurd h (by simp)
    · rw [mock_padded_chunk_hash_for_testing, if_neg hp] at h
      injection h with h
      subst h
      rw [mock_padded_chunk_hash_for_testing, if_pos rfl]

/-- Witness for `padded_chunk_spec`: padding the concrete non-padding
chunk succeeds, padding its result fails. -/
theorem padded_chunk_spec_witness :
    (¬testChunk.is_padding = true ∧
      ∃ c', mock_padded_chunk_hash_for_testing testChunk = some c' ∧
        c'.chain_id = testChunk.chain_id ∧
        c'.prev_state_root = testChunk.prev_state_root ∧
        c'.post_state_root = testChunk.post_state_root ∧
        c'.withdraw_root = testChunk.withdraw_root ∧
        c'.data_hash = testChunk.data_hash ∧
        c'.challenge_point = testChunk.challenge_point ∧
        c'.partResult = testChunk.partResult ∧ c'.is_padding = true) ∧
    (∀ c', mock_padded_chunk_hash_for_testing testChunk = some c' →
      mock_padded_chunk_hash_for_testing c' = none) :=
  ⟨⟨by simp [testChunk], (padded_chunk_spec testChunk).1 (by simp [testChunk])⟩,
    (padded_chunk_spec testChunk).2.2⟩

/-- C9: decoding the stored 32-byte scalars fails on non-canonical
values (at or above the modulus) before any arithmetic use, and on
canonical values yields the 3-limb 88-bit decomposition, whose limbs
reconstruct the value as `Σ limbᵢ · 2^(88·i)`. -/
theorem scalar_decode_spec (c : ChunkHash) :
    (blsScalarModulus ≤ leVal c.challenge_point →
      challenge_point_limbs c = none) ∧
    (leVal c.challenge_point < blsScalarModulus →
      challenge_point_limbs c =
        some (decompose3x88 (leVal c.challenge_point)) ∧
      decompose3x88 (leVal c.challenge_point) =
        [leVal c.challenge_point % 2 ^ 88,
          leVal c.challenge_point / 2 ^ 88 % 2 ^ 88,
          leVal c.challenge_point / 2 ^ 176] ∧
      leVal c.challenge_point % 2 ^ 88 +
        leVal c.challenge_point / 2 ^ 88 % 2 ^ 88 * 2 ^ 88 +
        leVal c.challenge_point / 2 ^ 176 * 2 ^ 176 =
        leVal c.challenge_point ∧
      leVal c.challenge_point / 2 ^ 176 < 2 ^ 88) ∧
    (blsScalarModulus ≤ leVal c.partResult → partResult_limbs c = none) ∧
    (leVal c.partResult < blsScalarModulus →
      partResult_limbs c = some (decompose3x88 (leVal c.partResult))) := by
  have hdecode : ∀ bytes : List Nat, leVal bytes < blsScalarModulus →
      (fpFromBytes bytes).map (fun fe => decompose3x88 (feToBigUInt fe)) =
        some (decompose3x88 (leVal bytes)) := by
    intro bytes hlt
    rw [fpFromBytes, if_pos hlt]
    show some (decompose3x88 (feToBigUInt ((leVal bytes : Nat) : Fp))) = _
    rw [feToBigUInt, ZMod.val_natCast, Nat.mod_eq_of_lt hlt]
  have hfail : ∀ bytes : List Nat, blsScalarModulus ≤ leVal bytes →
      (fpFromBytes bytes).map (fun fe => decompose3x88 (feToBigUInt fe)) =
        none := by
    intro bytes hge
    rw [fpFromBytes, if_neg (Nat.not_lt.mpr hge)]
    rfl
  refine ⟨fun h => hfail _ h, fun h => ⟨hdecode _ h, rfl, ?_, ?_⟩,
    fun h => hfail _ h, fun h => hdecode _ h⟩
  · omega
  · have hp : blsScalarModulus < 2 ^ 264 := by norm_num [blsScalarModulus]
    omega

/-- Witness for `scalar_decode_spec`: the all-zero scalar is canonical
and decodes; the all-`255` scalar encodes `2^256 − 1 ≥ p` and fails. -/
theorem scalar_decode_spec_witness :
    (leVal testChunk.challenge_point < blsScalarModulus ∧
      challenge_point_limbs testChunk =
        some (decompose3x88 (leVal testChunk.challenge_point))) ∧
    (blsScalarModulus ≤ leVal badScalarChunk.challenge_point ∧
      challenge_point_limbs badScalarChunk = none) ∧
    (blsScalarModulus ≤ leVal badScalarChunk.partResult ∧
      partResult_limbs badScalarChunk = none) := by
  refine ⟨⟨?_, ?_⟩, ⟨?_, ?_⟩, ⟨?_, ?_⟩⟩
  · decide
  · exact ((scalar_decode_spec testChunk).2.1 (by decide)).1
  · decide
  · exact (scalar_decode_spec badScalarChunk).1 (by decide)
  · decide
  · exact (scalar_decode_spec badScalarChunk).2.2.1 (by decide)

/-! ### The partial-blob error path (claim C10) -/

/-- An oversized payload makes `partial_blob` swallow the encoder error
and return the empty vector. -/
theorem partBlob_err (b : WitnessBlock)
    (h : MAX_BLOB_DATA_SIZE < (blockPayload b).length) : partBlob b = [] := by
  unfold partBlob
  rw [block_to_blob, if_pos h]

/-- An empty payload yields the one-element vector `[0]` (the 32-byte
zero header group decoded as a scalar). -/
theorem partBlob_nil (b : WitnessBlock) (h : blockPayload b = []) :
    partBlob b = [(0 : Fp)] := by
  unfold partBlob
  rw [h]
  decide

/-- `oversizedBlock`'s payload exceeds the maximum blob size by one
byte. -/
theorem oversizedBlock_payload_big :
    MAX_BLOB_DATA_SIZE < (blockPayload oversizedBlock).length := by
  simp only [blockPayload, oversizedBlock, List.flatMap_cons,
    List.flatMap_nil, List.append_nil, oversizedPayload,
    List.length_replicate, MAX_BLOB_DATA_SIZE]
  norm_num

/-- C10 counterexample: an oversized payload yields the empty vector,
but a genuinely empty payload yields the one-element vector `[0]` — the
two results differ, so a caller *can* distinguish the oversized case
from the empty case through `partial_blob`'s result. -/
theorem partBlob_oversized_vs_empty_cex :
    partBlob oversizedBlock = [] ∧
    partBlob emptyBlock = [(0 : Fp)] ∧
    partBlob oversizedBlock ≠ partBlob emptyBlock := by
  have h1 := partBlob_err oversizedBlock oversizedBlock_payload_big
  have h2 := partBlob_nil emptyBlock rfl
  exact ⟨h1, h2, by rw [h1, h2]; simp⟩

/-- C10 (amended): when the payload exceeds the maximum blob size,
`partial_blob` swallows the encoder's error and returns the empty
vector; a genuinely empty payload instead yields the one-element vector
`[0]` (the 32-byte zero group), so the empty result occurs only on the
error path. -/
theorem partBlob_error_path (b : WitnessBlock) :
    (MAX_BLOB_DATA_SIZE < (blockPayload b).length → partBlob b = []) ∧
    (blockPayload b = [] → partBlob b = [(0 : Fp)]) :=
  ⟨fun h => partBlob_err b h, fun h => partBlob_nil b h⟩

/-- Witness for `partBlob_error_path` at the two concrete blocks. -/
theorem partBlob_error_path_witness :
    (MAX_BLOB_DATA_SIZE < (blockPayload oversizedBlock).length ∧
      partBlob oversizedBlock = []) ∧
    (blockPayload emptyBlock = [] ∧ partBlob emptyBlock = [(0 : Fp)]) :=
  ⟨⟨oversizedBlock_payload_big,
      (partBlob_error_path oversizedBlock).1 oversizedBlock_payload_big⟩,
    ⟨rfl, (partBlob_error_path emptyBlock).2 rfl⟩⟩
